import Mathlib

/-!
Verification development for the copper-rs export/decode pipeline
(`cu29_export/src/lib.rs`).

The two functions under study, `copperlists_dump` and `textlog_dump`, drive a
streaming binary decoder over a byte source and classify decode failures.
Their control flow is embedded here directly from the source.  The record
codec itself (bincode together with the `CuLogEntry` / `CopperList` encodings)
lives in sibling crates whose sources are not part of this excerpt; those
parts are modelled from the specification (deterministic binary encoding,
fixed-width scalars, count-prefixed parameter sequences, explicit type tags,
and the failure classification of §4.1/§4.5 of the spec).
-/

namespace CuExport

/-- Modelled from the spec: the relevant classes of underlying I/O error kind.
The decode pipeline only distinguishes end-of-file from every other kind. -/
inductive IOKind where
  | unexpectedEof : IOKind
  | otherKind : IOKind
deriving DecidableEq, Repr

/-- Modelled from the spec: one event produced by the underlying reader —
either a data byte or an I/O failure of some kind. -/
inductive ReadItem where
  | byte : Nat → ReadItem
  | ioFailure : IOKind → ReadItem
deriving DecidableEq, Repr

/-- The byte source feeding the decoder: a finite sequence of read events. -/
abbrev Src := List ReadItem

/-- Lift a plain byte list into a source with no I/O failures. -/
def bytesOf (l : List Nat) : Src := l.map ReadItem.byte

/-- Modelled from the spec: the decode failure classification of §4.1 —
clean end of input, an underlying I/O error carrying its kind, or any other
decode failure (such as a malformed type tag). -/
inductive DecodeError where
  | unexpectedEnd : DecodeError
  | ioFail : IOKind → DecodeError
  | otherErr : String → DecodeError
deriving DecidableEq, Repr

/-- A decoding step: consume a prefix of the source, producing a value or a
classified failure together with the remaining source. -/
def Dec (α : Type) : Type := Src → Except DecodeError α × Src

instance : Monad Dec where
  pure a := fun s => (Except.ok a, s)
  bind m f := fun s =>
    match m s with
    | (Except.ok a, s1) => f a s1
    | (Except.error e, s1) => (Except.error e, s1)

/-- Fail with a given decode error, consuming nothing further. -/
def Dec.throw {α : Type} (e : DecodeError) : Dec α := fun s => (Except.error e, s)

/-- Read one item from the source: a byte succeeds, exhaustion is a clean
unexpected-end, and an I/O failure surfaces with its kind. -/
def readByte : Dec Nat := fun s =>
  match s with
  | [] => (Except.error DecodeError.unexpectedEnd, [])
  | ReadItem.byte b :: rest => (Except.ok b, rest)
  | ReadItem.ioFailure k :: rest => (Except.error (DecodeError.ioFail k), rest)

/-- Read exactly `n` bytes. -/
def readBytes : Nat → Dec (List Nat)
  | 0 => pure []
  | n + 1 => do
    let b ← readByte
    let bs ← readBytes n
    pure (b :: bs)

/-- Value of a little-endian byte list. -/
def leVal : List Nat → Nat
  | [] => 0
  | b :: bs => b + 256 * leVal bs

/-- Little-endian encoding of `v` in exactly `w` bytes. -/
def leBytes : Nat → Nat → List Nat
  | 0, _ => []
  | w + 1, v => v % 256 :: leBytes w (v / 256)

/-- Read a `w`-byte little-endian unsigned integer. -/
def readU (w : Nat) : Dec Nat := do
  let bs ← readBytes w
  pure (leVal bs)

/-- Two's-complement 32-bit image of a signed integer. -/
def i32ToU32 (i : Int) : Nat := (i % (2 ^ 32 : Nat)).toNat

/-- Signed interpretation of a 32-bit unsigned value. -/
def u32ToI32 (n : Nat) : Int :=
  if n < 2 ^ 31 then (n : Int) else (n : Int) - 2 ^ 32

/-- Modelled from the spec: the application-fixed snapshot payload used by the
export tests, the tuple `(u8, i32, f32)`.  The `f32` component is carried as
its raw 32-bit pattern; no floating-point arithmetic occurs anywhere in the
pipeline, the bits are only stored and retrieved. -/
structure Payload where
  a : Nat
  b : Int
  c : Nat
deriving DecidableEq, Repr

/-- Modelled from the spec: the snapshot container — a `u64` sequence id plus
the build-time-fixed payload. -/
structure CopperList where
  id : Nat
  payload : Payload
deriving DecidableEq, Repr

/-- Well-formedness of a payload: each field fits its machine width. -/
def wfPayload (p : Payload) : Prop :=
  p.a < 2 ^ 8 ∧ -(2 ^ 31 : Int) ≤ p.b ∧ p.b < 2 ^ 31 ∧ p.c < 2 ^ 32

/-- Well-formedness of a snapshot container. -/
def wfCopperList (cl : CopperList) : Prop :=
  cl.id < 2 ^ 64 ∧ wfPayload cl.payload

/-- Modelled from the spec: the deterministic fixed-width binary encoding of a
snapshot container — sequence id then the scalar payload fields, little
endian. -/
def encodeCopperList (cl : CopperList) : List Nat :=
  leBytes 8 cl.id ++ leBytes 1 cl.payload.a ++
    leBytes 4 (i32ToU32 cl.payload.b) ++ leBytes 4 cl.payload.c

/-- Modelled from the spec: decoding of a snapshot container, the inverse
reading of `encodeCopperList`. -/
def decodeCopperList : Dec CopperList := do
  let id ← readU 8
  let a ← readU 1
  let bRaw ← readU 4
  let c ← readU 4
  pure { id := id, payload := { a := a, b := u32ToI32 bRaw, c := c } }

/-- One pull on the iterator produced by `copperlists_dump` in
`cu29_export/src/lib.rs`: a successful decode yields the container; every
decode failure — clean end, I/O end-of-file, any other I/O error, or any
other decode error — is swallowed (printed in the source) and ends this pull
with `none`. -/
def copperlists_next (src : Src) : Option CopperList × Src :=
  match decodeCopperList src with
  | (Except.ok entry, s1) => (some entry, s1)
  | (Except.error _, s1) => (none, s1)

/-- Driving the iterator to its first `none`, as the `for` loop of `run_cli`
does: the list of containers yielded before the iterator first returns
`none`.  Fuel bounds the recursion; `copperlists_dump` supplies enough. -/
def copperlists_go : Nat → Src → List CopperList
  | 0, _ => []
  | fuel + 1, src =>
    match copperlists_next src with
    | (none, _) => []
    | (some cl, rest) => cl :: copperlists_go fuel rest

/-- The sequence of snapshot containers extracted from a source by the
iterator of `copperlists_dump`, collected until the first `none`. -/
def copperlists_dump (src : Src) : List CopperList :=
  copperlists_go (src.length + 1) src

/-- Result wrapped by the repository's `CuResult`: an error message together
with an optional underlying cause. -/
structure CuError where
  message : String
  cause : Option String
deriving DecidableEq, Repr

/-- Attach an underlying cause to an error message, as
`CuError::new_with_cause` does. -/
def CuError.new_with_cause (msg : String) (c : String) : CuError :=
  { message := msg, cause := some c }

/-- The `ExtractCopperlist` branch of `run_cli` in `cu29_export/src/lib.rs`:
print every container the iterator yields, then return `Ok`.  No decode
failure reaches the return value. -/
def run_extract_copperlist (src : Src) : Except CuError (List CopperList) :=
  Except.ok (copperlists_dump src)

/-- Modelled from the spec: the tagged parameter value of a log record.
Representative variants of the spec's tagged union — an unsigned scalar, an
owned text (as raw bytes), and a boolean.  Every node carries its own type
tag on the wire and an unrecognized tag is a decode failure. -/
inductive Value where
  | vU64 : Nat → Value
  | vText : List Nat → Value
  | vBool : Bool → Value
deriving DecidableEq, Repr

/-- One parameter slot of a log record: an optional name and a value. -/
structure Param where
  name : Option (List Nat)
  value : Value
deriving DecidableEq, Repr

/-- The log record `CuLogEntry`: interned message id, timestamp, and the
ordered parameter sequence.  The id `0` is the reserved terminator. -/
structure CuLogEntry where
  msg_index : Nat
  time : Nat
  params : List Param
deriving DecidableEq, Repr

/-- Well-formedness of a raw text: every byte fits in eight bits and the
length fits the count prefix. -/
def wfText (t : List Nat) : Prop :=
  (∀ b ∈ t, b < 2 ^ 8) ∧ t.length < 2 ^ 64

/-- Well-formedness of a value: each scalar fits its machine width. -/
def wfValue : Value → Prop
  | Value.vU64 n => n < 2 ^ 64
  | Value.vText t => wfText t
  | Value.vBool _ => True

/-- Well-formedness of an optional parameter name. -/
def wfName : Option (List Nat) → Prop
  | none => True
  | some t => wfText t

/-- Well-formedness of a parameter slot. -/
def wfParam (p : Param) : Prop :=
  wfName p.name ∧ wfValue p.value

/-- Well-formedness of a log record. -/
def wfEntry (e : CuLogEntry) : Prop :=
  e.msg_index < 2 ^ 32 ∧ e.time < 2 ^ 64 ∧ e.params.length < 2 ^ 64 ∧
    ∀ p ∈ e.params, wfParam p

instance (t : List Nat) : Decidable (wfText t) := by
  unfold wfText; exact inferInstance

instance : (v : Value) → Decidable (wfValue v)
  | Value.vU64 n => inferInstanceAs (Decidable (n < 2 ^ 64))
  | Value.vText t => inferInstanceAs (Decidable (wfText t))
  | Value.vBool _ => inferInstanceAs (Decidable True)

instance : (o : Option (List Nat)) → Decidable (wfName o)
  | none => inferInstanceAs (Decidable True)
  | some t => inferInstanceAs (Decidable (wfText t))

instance (p : Param) : Decidable (wfParam p) := by
  unfold wfParam; exact inferInstance

instance (e : CuLogEntry) : Decidable (wfEntry e) := by
  unfold wfEntry; exact inferInstance

instance (p : Payload) : Decidable (wfPayload p) := by
  unfold wfPayload; exact inferInstance

instance (cl : CopperList) : Decidable (wfCopperList cl) := by
  unfold wfCopperList; exact inferInstance

/-- Modelled from the spec: length-prefixed encoding of an owned text. -/
def encodeText (t : List Nat) : List Nat :=
  leBytes 8 t.length ++ t

/-- Modelled from the spec: encoding of a value — a type tag then the
fixed-width scalar or length-prefixed text. -/
def encodeValue : Value → List Nat
  | Value.vU64 n => 0 :: leBytes 8 n
  | Value.vText t => 1 :: encodeText t
  | Value.vBool b => 2 :: [if b then 1 else 0]

/-- Modelled from the spec: encoding of a parameter slot — an option tag for
the name, then the value. -/
def encodeParam (p : Param) : List Nat :=
  (match p.name with
    | none => [0]
    | some t => 1 :: encodeText t) ++ encodeValue p.value

/-- Modelled from the spec: encoding of a log record — fixed-width header
(id, timestamp) followed by the count-prefixed parameter sequence. -/
def encodeEntry (e : CuLogEntry) : List Nat :=
  leBytes 4 e.msg_index ++ leBytes 8 e.time ++
    leBytes 8 e.params.length ++ (e.params.map encodeParam).flatten

/-- Concatenated encodings of a sequence of log records. -/
def encodeEntries (rs : List CuLogEntry) : List Nat :=
  (rs.map encodeEntry).flatten

/-- Modelled from the spec: decoding of an owned text. -/
def decodeText : Dec (List Nat) := do
  let n ← readU 8
  readBytes n

/-- Modelled from the spec: decoding of a value; a tag outside the known set
is a malformed-tag decode failure. -/
def decodeValue : Dec Value := do
  let tag ← readByte
  match tag with
  | 0 => do
    let n ← readU 8
    pure (Value.vU64 n)
  | 1 => do
    let t ← decodeText
    pure (Value.vText t)
  | 2 => do
    let b ← readByte
    match b with
    | 0 => pure (Value.vBool false)
    | 1 => pure (Value.vBool true)
    | _ => Dec.throw (DecodeError.otherErr "invalid bool")
  | _ => Dec.throw (DecodeError.otherErr "invalid value tag")

/-- Modelled from the spec: decoding of a parameter slot. -/
def decodeParam : Dec Param := do
  let tag ← readByte
  match tag with
  | 0 => do
    let v ← decodeValue
    pure { name := none, value := v }
  | 1 => do
    let t ← decodeText
    let v ← decodeValue
    pure { name := some t, value := v }
  | _ => Dec.throw (DecodeError.otherErr "invalid option tag")

/-- Decode exactly `n` parameter slots. -/
def decodeParams : Nat → Dec (List Param)
  | 0 => pure []
  | n + 1 => do
    let p ← decodeParam
    let ps ← decodeParams n
    pure (p :: ps)

/-- Modelled from the spec: decoding of a log record, the inverse reading of
`encodeEntry`. -/
def decodeEntry : Dec CuLogEntry := do
  let idx ← readU 4
  let t ← readU 8
  let n ← readU 8
  let ps ← decodeParams n
  pure { msg_index := idx, time := t, params := ps }

/-- Modelled from the spec: one piece of a format template — a literal or a
parameter placeholder. -/
inductive Tpl where
  | lit : String → Tpl
  | hole : Tpl
deriving DecidableEq, Repr

/-- A format template: literals interleaved with placeholders. -/
abbrev Template := List Tpl

/-- Modelled from the spec: the interning table read from the side index
file — a mapping from record id to its format template.  It is absent for
ids never interned at build time. -/
def InterningTable : Type := Nat → Option Template

/-- Render a parameter value as text for substitution into a template. -/
def renderValue : Value → String
  | Value.vU64 n => toString n
  | Value.vText t => String.mk (t.map Char.ofNat)
  | Value.vBool b => toString b

/-- Substitute rendered parameter values into a template positionally; a
count mismatch between placeholders and parameters is a per-record
reconstruction failure. -/
def substTemplate : Template → List String → Except String String
  | [], [] => Except.ok ""
  | [], _ :: _ => Except.error "too many parameters"
  | Tpl.lit s :: rest, args => do
    let tail ← substTemplate rest args
    pure (s ++ tail)
  | Tpl.hole :: _, [] => Except.error "missing parameter"
  | Tpl.hole :: rest, arg :: args => do
    let tail ← substTemplate rest args
    pure (arg ++ tail)

/-- Modelled from the spec: `rebuild_logline` — look the record id up in the
interning table, failing for this record only when the id is absent, then
substitute the parameter values into the template.  The spec leaves the
mixed named/positional precedence open; this model substitutes positionally. -/
def rebuild_logline (table : InterningTable) (e : CuLogEntry) :
    Except String String :=
  match table e.msg_index with
  | none => Except.error "interned id not found"
  | some tpl => substTemplate tpl (e.params.map (fun p => renderValue p.value))

instance {ε α : Type} [DecidableEq ε] [DecidableEq α] :
    DecidableEq (Except ε α) := fun x y =>
  match x, y with
  | Except.ok a, Except.ok b =>
      if h : a = b then isTrue (by rw [h]) else isFalse (by simp [h])
  | Except.error a, Except.error b =>
      if h : a = b then isTrue (by rw [h]) else isFalse (by simp [h])
  | Except.ok _, Except.error _ => isFalse (by simp)
  | Except.error _, Except.ok _ => isFalse (by simp)

/-- One observable line printed by the text dump: either a reconstructed log
line or the report of a per-record reconstruction failure. -/
inductive LogEvent where
  | line : Nat → String → LogEvent
  | rebuildFailed : LogEvent
deriving DecidableEq, Repr

/-- The observable outcome of a run of `textlog_dump`: the printed events in
order, the returned `CuResult`, and the unconsumed remainder of the source. -/
structure TextlogResult where
  events : List LogEvent
  outcome : Except CuError Unit
  rest : Src
deriving DecidableEq, Repr

/-- Prepend one printed event to a run result. -/
def TextlogResult.push (ev : LogEvent) (r : TextlogResult) : TextlogResult :=
  { events := ev :: r.events, outcome := r.outcome, rest := r.rest }

/-- The `CuError` constructed by `textlog_dump` for a fatal decode failure:
the fixed message with the underlying cause attached, the I/O variant naming
the inner I/O error as the source does. -/
def textlogErrorOf : DecodeError → CuError
  | DecodeError.ioFail k =>
      CuError.new_with_cause "Error reading log" (toString (repr k))
  | e => CuError.new_with_cause "Error reading log" (toString (repr e))

/-- The event `textlog_dump` prints for one successfully decoded,
non-terminator record: the reconstructed line, or the failure report when
reconstruction fails. -/
def processEntry (table : InterningTable) (e : CuLogEntry) : LogEvent :=
  match rebuild_logline table e with
  | Except.error _ => LogEvent.rebuildFailed
  | Except.ok text => LogEvent.line e.time text

/-- The decode loop of `textlog_dump` in `cu29_export/src/lib.rs`: clean
unexpected-end and I/O end-of-file return `Ok`; any other I/O error or decode
error returns `Err` with the cause attached; a decoded record with id `0`
breaks out of the loop with `Ok`; otherwise the record is reconstructed,
a per-record failure is reported and the loop continues.  Fuel bounds the
recursion; `textlog_dump_run` supplies enough. -/
def textlog_go (table : InterningTable) : Nat → Src → TextlogResult
  | 0, src => { events := [], outcome := Except.ok (), rest := src }
  | fuel + 1, src =>
    match decodeEntry src with
    | (Except.error DecodeError.unexpectedEnd, s1) =>
        { events := [], outcome := Except.ok (), rest := s1 }
    | (Except.error (DecodeError.ioFail k), s1) =>
        if k = IOKind.unexpectedEof then
          { events := [], outcome := Except.ok (), rest := s1 }
        else
          { events := [],
            outcome := Except.error (textlogErrorOf (DecodeError.ioFail k)),
            rest := s1 }
    | (Except.error e, s1) =>
        { events := [], outcome := Except.error (textlogErrorOf e), rest := s1 }
    | (Except.ok entry, s1) =>
        if entry.msg_index = 0 then
          { events := [], outcome := Except.ok (), rest := s1 }
        else
          TextlogResult.push (processEntry table entry)
            (textlog_go table fuel s1)

/-- A full run of `textlog_dump`: first the interning table is read from the
index file (its outcome, modelled from the spec, is an input here); a read
failure propagates immediately, before any byte of the source is consumed.
Otherwise the decode loop runs. -/
def textlog_dump_run (idx : Except CuError InterningTable) (src : Src) :
    TextlogResult :=
  match idx with
  | Except.error e => { events := [], outcome := Except.error e, rest := src }
  | Except.ok table => textlog_go table (src.length + 1) src

/-- The value `textlog_dump` returns to its caller. -/
def textlog_dump (idx : Except CuError InterningTable) (src : Src) :
    Except CuError Unit :=
  (textlog_dump_run idx src).outcome

/-- Prepend a sequence of printed events to a run result. -/
def TextlogResult.pushAll (evs : List LogEvent) (r : TextlogResult) :
    TextlogResult :=
  { events := evs ++ r.events, outcome := r.outcome, rest := r.rest }

/-- Concatenated encodings of a sequence of snapshot containers. -/
def encodeCopperLists (cls : List CopperList) : List Nat :=
  (cls.map encodeCopperList).flatten

/-- The decode failures the pipeline treats as fatal: everything except clean
unexpected-end and I/O end-of-file. -/
def isFatal : DecodeError → Bool
  | DecodeError.unexpectedEnd => false
  | DecodeError.ioFail IOKind.unexpectedEof => false
  | DecodeError.ioFail IOKind.otherKind => true
  | DecodeError.otherErr _ => true

/-- A decoding step never invents input: the remainder is no longer than the
source. -/
def Dec.mono {α : Type} (m : Dec α) : Prop :=
  ∀ s : Src, ((m s).2).length ≤ s.length

/-- A decoding step that consumes at least one item whenever it succeeds. -/
def Dec.strict {α : Type} (m : Dec α) : Prop :=
  ∀ (s : Src) (a : α) (s1 : Src), m s = (Except.ok a, s1) → s1.length < s.length

theorem Dec.bind_def {α β : Type} (m : Dec α) (f : α → Dec β) (s : Src) :
    (m >>= f) s = match m s with
      | (Except.ok a, s1) => f a s1
      | (Except.error e, s1) => (Except.error e, s1) := rfl

theorem Dec.pure_def {α : Type} (a : α) (s : Src) :
    (pure a : Dec α) s = (Except.ok a, s) := rfl

theorem Dec.bind_ok {α β : Type} {m : Dec α} {f : α → Dec β} {s s1 : Src}
    {a : α} (h : m s = (Except.ok a, s1)) : (m >>= f) s = f a s1 := by
  rw [Dec.bind_def, h]

theorem Dec.bind_error {α β : Type} {m : Dec α} {f : α → Dec β} {s s1 : Src}
    {e : DecodeError} (h : m s = (Except.error e, s1)) :
    (m >>= f) s = (Except.error e, s1) := by
  rw [Dec.bind_def, h]

theorem Dec.mono_pure {α : Type} (a : α) : (pure a : Dec α).mono :=
  fun _ => Nat.le_refl _

theorem Dec.mono_throw {α : Type} (e : DecodeError) :
    (Dec.throw e : Dec α).mono :=
  fun _ => Nat.le_refl _

theorem Dec.mono_bind {α β : Type} {m : Dec α} {f : α → Dec β}
    (hm : m.mono) (hf : ∀ a, (f a).mono) : (m >>= f).mono := by
  intro s
  have hm1 := hm s
  rw [Dec.bind_def]
  rcases h : m s with ⟨res, s1⟩
  rw [h] at hm1
  cases res with
  | ok a => exact Nat.le_trans (hf a s1) hm1
  | error e => exact hm1

theorem Dec.strict_bind {α β : Type} {m : Dec α} {f : α → Dec β}
    (hm : m.strict) (hf : ∀ a, (f a).mono) : (m >>= f).strict := by
  intro s b s2 h
  rw [Dec.bind_def] at h
  rcases h1 : m s with ⟨res, s1⟩
  rw [h1] at h
  cases res with
  | ok a =>
    replace h : f a s1 = (Except.ok b, s2) := h
    have hle := hf a s1
    rw [h] at hle
    exact Nat.lt_of_le_of_lt hle (hm s a s1 h1)
  | error e =>
    replace h : (Except.error e, s1) = ((Except.ok b : Except DecodeError β), s2) := h
    exact absurd h (by simp)

theorem readByte_mono : readByte.mono := by
  intro s
  cases s with
  | nil => exact Nat.le_refl _
  | cons x rest => cases x <;> exact Nat.le_succ _

theorem readByte_strict : readByte.strict := by
  intro s a s1 h
  cases s with
  | nil => exact absurd h (by simp [readByte])
  | cons x rest =>
    cases x with
    | byte b =>
      simp only [readByte] at h
      obtain ⟨-, h2⟩ := Prod.mk.injEq .. ▸ h
      simp [← h2]
    | ioFailure k => exact absurd h (by simp [readByte])

theorem readBytes_mono : ∀ n : Nat, (readBytes n).mono := by
  intro n
  induction n with
  | zero => exact Dec.mono_pure _
  | succ n ih =>
    simp only [readBytes]
    exact Dec.mono_bind readByte_mono
      (fun b => Dec.mono_bind ih (fun bs => Dec.mono_pure _))

theorem readBytes_strict {n : Nat} (h : 0 < n) : (readBytes n).strict := by
  cases n with
  | zero => exact absurd h (by simp)
  | succ n =>
    simp only [readBytes]
    exact Dec.strict_bind readByte_strict
      (fun b => Dec.mono_bind (readBytes_mono n) (fun _ => Dec.mono_pure _))

theorem readU_mono (w : Nat) : (readU w).mono :=
  Dec.mono_bind (readBytes_mono w) (fun _ => Dec.mono_pure _)

theorem readU_strict {w : Nat} (h : 0 < w) : (readU w).strict :=
  Dec.strict_bind (readBytes_strict h) (fun _ => Dec.mono_pure _)

theorem bytesOf_append (l1 l2 : List Nat) :
    bytesOf (l1 ++ l2) = bytesOf l1 ++ bytesOf l2 :=
  List.map_append _ _ _

theorem readByte_byte (b : Nat) (s : Src) :
    readByte (ReadItem.byte b :: s) = (Except.ok b, s) := rfl

theorem readBytes_exact : ∀ (l : List Nat) (s : Src),
    readBytes l.length (bytesOf l ++ s) = (Except.ok l, s) := by
  intro l
  induction l with
  | nil => intro s; rfl
  | cons b bs ih =>
    intro s
    simp only [List.length_cons, readBytes]
    have h1 : readByte (bytesOf (b :: bs) ++ s) = (Except.ok b, bytesOf bs ++ s) := rfl
    rw [Dec.bind_ok h1, Dec.bind_ok (ih s)]
    rfl

theorem leBytes_length : ∀ (w v : Nat), (leBytes w v).length = w := by
  intro w
  induction w with
  | zero => intro v; rfl
  | succ w ih => intro v; simp [leBytes, ih]

theorem leVal_leBytes : ∀ (w v : Nat), v < 256 ^ w → leVal (leBytes w v) = v := by
  intro w
  induction w with
  | zero => intro v hv; interval_cases v; rfl
  | succ w ih =>
    intro v hv
    have hdiv : v / 256 < 256 ^ w := by
      rw [Nat.div_lt_iff_lt_mul (by norm_num)]
      calc v < 256 ^ (w + 1) := hv
        _ = 256 ^ w * 256 := by ring
    simp only [leBytes, leVal, ih (v / 256) hdiv]
    omega

theorem readU_exact {w v : Nat} (hv : v < 256 ^ w) (s : Src) :
    readU w (bytesOf (leBytes w v) ++ s) = (Except.ok v, s) := by
  unfold readU
  have h1 : readBytes w (bytesOf (leBytes w v) ++ s) =
      (Except.ok (leBytes w v), s) := by
    have := readBytes_exact (leBytes w v) s
    rwa [leBytes_length] at this
  rw [Dec.bind_ok h1, Dec.pure_def, leVal_leBytes w v hv]

theorem i32_roundtrip {i : Int} (h1 : -(2 ^ 31 : Int) ≤ i) (h2 : i < 2 ^ 31) :
    u32ToI32 (i32ToU32 i) = i := by
  unfold u32ToI32 i32ToU32
  split_ifs with h <;> omega

theorem i32ToU32_lt (i : Int) : i32ToU32 i < 2 ^ 32 := by
  unfold i32ToU32
  omega

theorem decodeText_mono : decodeText.mono :=
  Dec.mono_bind (readU_mono 8) (fun n => readBytes_mono n)

theorem decodeValue_mono : decodeValue.mono := by
  unfold decodeValue
  refine Dec.mono_bind readByte_mono ?_
  intro tag
  match tag with
  | 0 => exact Dec.mono_bind (readU_mono 8) (fun n => Dec.mono_pure _)
  | 1 => exact Dec.mono_bind decodeText_mono (fun t => Dec.mono_pure _)
  | 2 =>
    refine Dec.mono_bind readByte_mono ?_
    intro b
    match b with
    | 0 => exact Dec.mono_pure _
    | 1 => exact Dec.mono_pure _
    | n + 2 => exact Dec.mono_throw _
  | n + 3 => exact Dec.mono_throw _

theorem decodeParam_mono : decodeParam.mono := by
  unfold decodeParam
  refine Dec.mono_bind readByte_mono ?_
  intro tag
  match tag with
  | 0 => exact Dec.mono_bind decodeValue_mono (fun v => Dec.mono_pure _)
  | 1 =>
    exact Dec.mono_bind decodeText_mono
      (fun t => Dec.mono_bind decodeValue_mono (fun v => Dec.mono_pure _))
  | n + 2 => exact Dec.mono_throw _

theorem decodeParams_mono : ∀ n : Nat, (decodeParams n).mono := by
  intro n
  induction n with
  | zero => exact Dec.mono_pure _
  | succ n ih =>
    simp only [decodeParams]
    exact Dec.mono_bind decodeParam_mono
      (fun p => Dec.mono_bind ih (fun ps => Dec.mono_pure _))

theorem decodeEntry_strict : decodeEntry.strict := by
  unfold decodeEntry
  exact Dec.strict_bind (readU_strict (by norm_num))
    (fun idx => Dec.mono_bind (readU_mono 8)
      (fun t => Dec.mono_bind (readU_mono 8)
        (fun n => Dec.mono_bind (decodeParams_mono n)
          (fun ps => Dec.mono_pure _))))

theorem decodeCopperList_strict : decodeCopperList.strict := by
  unfold decodeCopperList
  exact Dec.strict_bind (readU_strict (by norm_num))
    (fun id => Dec.mono_bind (readU_mono 1)
      (fun a => Dec.mono_bind (readU_mono 4)
        (fun bRaw => Dec.mono_bind (readU_mono 4)
          (fun c => Dec.mono_pure _))))

theorem decodeCopperList_exact {cl : CopperList} (h : wfCopperList cl) (s : Src) :
    decodeCopperList (bytesOf (encodeCopperList cl) ++ s) = (Except.ok cl, s) := by
  obtain ⟨hid, ha, hblo, hbhi, hc⟩ := h
  have hpow : (256 : Nat) ^ 8 = 2 ^ 64 := by norm_num
  have hpow1 : (256 : Nat) ^ 1 = 2 ^ 8 := by norm_num
  have hpow4 : (256 : Nat) ^ 4 = 2 ^ 32 := by norm_num
  unfold decodeCopperList encodeCopperList
  rw [bytesOf_append, bytesOf_append, bytesOf_append, List.append_assoc,
    List.append_assoc, List.append_assoc]
  rw [Dec.bind_ok (readU_exact (by omega) _)]
  rw [Dec.bind_ok (readU_exact (by omega) _)]
  rw [Dec.bind_ok (readU_exact (by rw [hpow4]; exact i32ToU32_lt _) _)]
  rw [Dec.bind_ok (readU_exact (by omega) _)]
  rw [Dec.pure_def, i32_roundtrip hblo hbhi]

theorem encodeCopperList_length (cl : CopperList) :
    (encodeCopperList cl).length = 17 := by
  simp [encodeCopperList, leBytes_length]

theorem copperlists_next_some_lt {src : Src} {cl : CopperList} {rest : Src}
    (h : copperlists_next src = (some cl, rest)) : rest.length < src.length := by
  unfold copperlists_next at h
  rcases h1 : decodeCopperList src with ⟨res, s1⟩
  rw [h1] at h
  cases res with
  | ok e =>
    replace h : ((some e : Option CopperList), s1) = (some cl, rest) := h
    obtain ⟨-, h2⟩ := Prod.mk.injEq .. ▸ h
    exact h2 ▸ decodeCopperList_strict src e s1 h1
  | error e =>
    replace h : ((none : Option CopperList), s1) = (some cl, rest) := h
    exact absurd h (by simp)

theorem copperlists_go_stable : ∀ (f1 f2 : Nat) (src : Src),
    src.length < f1 → src.length < f2 →
    copperlists_go f1 src = copperlists_go f2 src := by
  intro f1
  induction f1 with
  | zero => intro f2 src h1 h2; omega
  | succ n ih =>
    intro f2 src h1 h2
    cases f2 with
    | zero => omega
    | succ m =>
      simp only [copperlists_go]
      rcases h : copperlists_next src with ⟨o, rest⟩
      cases o with
      | none => rfl
      | some cl =>
        have hlt := copperlists_next_some_lt h
        show cl :: copperlists_go n rest = cl :: copperlists_go m rest
        rw [ih m rest (by omega) (by omega)]

theorem copperlists_go_step {src rest : Src} {cl : CopperList} (f : Nat)
    (hnext : copperlists_next src = (some cl, rest)) :
    copperlists_go (f + 1) src = cl :: copperlists_go f rest := by
  simp only [copperlists_go]
  rw [hnext]

theorem copperlists_dump_cons {cl : CopperList} (hwf : wfCopperList cl)
    (s : Src) :
    copperlists_dump (bytesOf (encodeCopperList cl) ++ s) =
      cl :: copperlists_dump s := by
  have hnext : copperlists_next (bytesOf (encodeCopperList cl) ++ s) =
      (some cl, s) := by
    unfold copperlists_next
    rw [decodeCopperList_exact hwf]
  unfold copperlists_dump
  rw [copperlists_go_step _ hnext,
    copperlists_go_stable ((bytesOf (encodeCopperList cl) ++ s).length)
      (s.length + 1) s (by simp [bytesOf, encodeCopperList_length]) (by omega)]

theorem copperlists_dump_nil : copperlists_dump [] = [] := rfl

theorem copperlists_dump_eofItem :
    copperlists_dump [ReadItem.ioFailure IOKind.unexpectedEof] = [] := rfl

theorem copperlists_dump_encs {cls : List CopperList}
    (hwf : ∀ cl ∈ cls, wfCopperList cl) (tail : Src) :
    copperlists_dump (bytesOf (encodeCopperLists cls) ++ tail) =
      cls ++ copperlists_dump tail := by
  induction cls with
  | nil => simp [encodeCopperLists, bytesOf]
  | cons cl cls ih =>
    have h1 : encodeCopperLists (cl :: cls) =
        encodeCopperList cl ++ encodeCopperLists cls := by
      simp [encodeCopperLists]
    rw [h1, bytesOf_append, List.append_assoc,
      copperlists_dump_cons (hwf cl (by simp)) _,
      ih (fun c hc => hwf c (by simp [hc]))]
    rfl

theorem decodeText_exact {t : List Nat} (h : wfText t) (s : Src) :
    decodeText (bytesOf (encodeText t) ++ s) = (Except.ok t, s) := by
  obtain ⟨-, hlen⟩ := h
  have hpow : (256 : Nat) ^ 8 = 2 ^ 64 := by norm_num
  unfold decodeText encodeText
  rw [bytesOf_append, List.append_assoc]
  rw [Dec.bind_ok (readU_exact (by omega) _)]
  exact readBytes_exact t s

theorem decodeValue_exact : ∀ {v : Value}, wfValue v → ∀ s : Src,
    decodeValue (bytesOf (encodeValue v) ++ s) = (Except.ok v, s) := by
  intro v hv s
  have hpow : (256 : Nat) ^ 8 = 2 ^ 64 := by norm_num
  cases v with
  | vU64 n =>
    simp only [wfValue] at hv
    have h1 : readByte (bytesOf (encodeValue (Value.vU64 n)) ++ s) =
        (Except.ok 0, bytesOf (leBytes 8 n) ++ s) := rfl
    unfold decodeValue
    rw [Dec.bind_ok h1]
    show (readU 8 >>= fun m => pure (Value.vU64 m) : Dec Value)
        (bytesOf (leBytes 8 n) ++ s) = (Except.ok (Value.vU64 n), s)
    rw [Dec.bind_ok (readU_exact (by omega) _), Dec.pure_def]
  | vText t =>
    simp only [wfValue] at hv
    have h1 : readByte (bytesOf (encodeValue (Value.vText t)) ++ s) =
        (Except.ok 1, bytesOf (encodeText t) ++ s) := rfl
    unfold decodeValue
    rw [Dec.bind_ok h1]
    show (decodeText >>= fun u => pure (Value.vText u) : Dec Value)
        (bytesOf (encodeText t) ++ s) = (Except.ok (Value.vText t), s)
    rw [Dec.bind_ok (decodeText_exact hv _), Dec.pure_def]
  | vBool b =>
    cases b with
    | false => rfl
    | true => rfl

theorem decodeParam_exact {p : Param} (h : wfParam p) (s : Src) :
    decodeParam (bytesOf (encodeParam p) ++ s) = (Except.ok p, s) := by
  obtain ⟨nm, v⟩ := p
  obtain ⟨hname, hv⟩ := h
  cases nm with
  | none =>
    have h1 : readByte (bytesOf (encodeParam ⟨none, v⟩) ++ s) =
        (Except.ok 0, bytesOf (encodeValue v) ++ s) := rfl
    unfold decodeParam
    rw [Dec.bind_ok h1]
    show (decodeValue >>= fun w => pure ⟨none, w⟩ : Dec Param)
        (bytesOf (encodeValue v) ++ s) = (Except.ok ⟨none, v⟩, s)
    rw [Dec.bind_ok (decodeValue_exact hv _), Dec.pure_def]
  | some t =>
    have ht : wfText t := hname
    have hb : bytesOf (encodeParam ⟨some t, v⟩) ++ s =
        ReadItem.byte 1 ::
          (bytesOf (encodeText t) ++ (bytesOf (encodeValue v) ++ s)) := by
      simp [encodeParam, bytesOf, List.append_assoc]
    rw [hb]
    unfold decodeParam
    rw [Dec.bind_ok (readByte_byte 1 _)]
    show ((decodeText >>= fun u => decodeValue >>= fun w =>
        pure ⟨some u, w⟩) : Dec Param)
        (bytesOf (encodeText t) ++ (bytesOf (encodeValue v) ++ s)) =
        (Except.ok ⟨some t, v⟩, s)
    rw [Dec.bind_ok (decodeText_exact ht _),
      Dec.bind_ok (decodeValue_exact hv _), Dec.pure_def]

theorem decodeParams_exact : ∀ (ps : List Param), (∀ p ∈ ps, wfParam p) →
    ∀ s : Src,
    decodeParams ps.length (bytesOf ((ps.map encodeParam).flatten) ++ s) =
      (Except.ok ps, s) := by
  intro ps
  induction ps with
  | nil => intro h s; rfl
  | cons p ps ih =>
    intro h s
    have hb : bytesOf (((p :: ps).map encodeParam).flatten) ++ s =
        bytesOf (encodeParam p) ++
          (bytesOf ((ps.map encodeParam).flatten) ++ s) := by
      simp [bytesOf, List.append_assoc]
    simp only [List.length_cons, decodeParams]
    rw [hb, Dec.bind_ok (decodeParam_exact (h p (by simp)) _)]
    show ((decodeParams ps.length >>= fun l => pure (p :: l)) : Dec (List Param))
        (bytesOf ((ps.map encodeParam).flatten) ++ s) = (Except.ok (p :: ps), s)
    rw [Dec.bind_ok (ih (fun q hq => h q (by simp [hq])) s), Dec.pure_def]

theorem decodeEntry_exact {e : CuLogEntry} (h : wfEntry e) (s : Src) :
    decodeEntry (bytesOf (encodeEntry e) ++ s) = (Except.ok e, s) := by
  obtain ⟨idx, tm, ps⟩ := e
  obtain ⟨hidx, htm, hn, hps⟩ := h
  have hpow4 : (256 : Nat) ^ 4 = 2 ^ 32 := by norm_num
  have hpow8 : (256 : Nat) ^ 8 = 2 ^ 64 := by norm_num
  have hidx1 : idx < 2 ^ 32 := hidx
  have htm1 : tm < 2 ^ 64 := htm
  have hn1 : ps.length < 2 ^ 64 := hn
  have h4 : idx < 256 ^ 4 := by omega
  have h8t : tm < 256 ^ 8 := by omega
  have h8n : ps.length < 256 ^ 8 := by omega
  unfold decodeEntry encodeEntry
  dsimp only
  rw [bytesOf_append, bytesOf_append, bytesOf_append, List.append_assoc,
    List.append_assoc, List.append_assoc]
  rw [Dec.bind_ok (readU_exact h4 _)]
  rw [Dec.bind_ok (readU_exact h8t _)]
  rw [Dec.bind_ok (readU_exact h8n _)]
  rw [Dec.bind_ok (decodeParams_exact ps hps _)]
  rw [Dec.pure_def]

theorem encodeEntry_length_pos (e : CuLogEntry) : 0 < (encodeEntry e).length := by
  simp [encodeEntry, leBytes_length]

theorem textlog_go_stable (table : InterningTable) : ∀ (f1 f2 : Nat) (src : Src),
    src.length < f1 → src.length < f2 →
    textlog_go table f1 src = textlog_go table f2 src := by
  intro f1
  induction f1 with
  | zero => intro f2 src h1 h2; omega
  | succ n ih =>
    intro f2 src h1 h2
    cases f2 with
    | zero => omega
    | succ m =>
      simp only [textlog_go]
      rcases h : decodeEntry src with ⟨res, s1⟩
      cases res with
      | error e =>
        cases e with
        | unexpectedEnd => rfl
        | ioFail k => rfl
        | otherErr msg => rfl
      | ok entry =>
        have hlt : s1.length < src.length := decodeEntry_strict src entry s1 h
        show (if entry.msg_index = 0 then
            ({ events := [], outcome := Except.ok (), rest := s1 } : TextlogResult)
          else TextlogResult.push (processEntry table entry) (textlog_go table n s1)) =
          (if entry.msg_index = 0 then
            { events := [], outcome := Except.ok (), rest := s1 }
          else TextlogResult.push (processEntry table entry) (textlog_go table m s1))
        by_cases hz : entry.msg_index = 0
        · rw [if_pos hz, if_pos hz]
        · rw [if_neg hz, if_neg hz, ih m s1 (by omega) (by omega)]

theorem textlog_go_step_entry (table : InterningTable) {src s1 : Src}
    {e : CuLogEntry} (f : Nat) (hdec : decodeEntry src = (Except.ok e, s1))
    (hnz : e.msg_index ≠ 0) :
    textlog_go table (f + 1) src =
      TextlogResult.push (processEntry table e) (textlog_go table f s1) := by
  simp only [textlog_go, hdec]
  rw [if_neg hnz]

theorem textlog_go_step_term (table : InterningTable) {src s1 : Src}
    {e : CuLogEntry} (f : Nat) (hdec : decodeEntry src = (Except.ok e, s1))
    (hz : e.msg_index = 0) :
    textlog_go table (f + 1) src =
      { events := [], outcome := Except.ok (), rest := s1 } := by
  simp only [textlog_go, hdec]
  rw [if_pos hz]

theorem textlog_go_step_fatal (table : InterningTable) {src s1 : Src}
    {err : DecodeError} (f : Nat)
    (hdec : decodeEntry src = (Except.error err, s1))
    (hf : isFatal err = true) :
    textlog_go table (f + 1) src =
      { events := [], outcome := Except.error (textlogErrorOf err),
        rest := s1 } := by
  cases err with
  | unexpectedEnd => simp [isFatal] at hf
  | ioFail k =>
    cases k with
    | unexpectedEof => simp [isFatal] at hf
    | otherKind => simp [textlog_go, hdec]
  | otherErr msg => simp [textlog_go, hdec]

theorem textlog_dump_run_ok (table : InterningTable) (src : Src) :
    textlog_dump_run (Except.ok table) src =
      textlog_go table (src.length + 1) src := rfl

theorem textlog_dump_run_error (e : CuError) (src : Src) :
    textlog_dump_run (Except.error e) src =
      { events := [], outcome := Except.error e, rest := src } := rfl

theorem textlog_run_cons (table : InterningTable) {e : CuLogEntry}
    (hwf : wfEntry e) (hnz : e.msg_index ≠ 0) (s : Src) :
    textlog_dump_run (Except.ok table) (bytesOf (encodeEntry e) ++ s) =
      TextlogResult.push (processEntry table e)
        (textlog_dump_run (Except.ok table) s) := by
  rw [textlog_dump_run_ok, textlog_dump_run_ok,
    textlog_go_step_entry table _ (decodeEntry_exact hwf s) hnz,
    textlog_go_stable table ((bytesOf (encodeEntry e) ++ s).length)
      (s.length + 1) s
      (by simp [bytesOf]; have hp := encodeEntry_length_pos e; omega)
      (by omega)]

theorem textlog_run_nil (table : InterningTable) :
    textlog_dump_run (Except.ok table) [] =
      { events := [], outcome := Except.ok (), rest := [] } := rfl

theorem textlog_run_eofItem (table : InterningTable) :
    textlog_dump_run (Except.ok table) [ReadItem.ioFailure IOKind.unexpectedEof] =
      { events := [], outcome := Except.ok (), rest := [] } := rfl

theorem textlog_run_append (table : InterningTable) : ∀ (rs : List CuLogEntry),
    (∀ e ∈ rs, wfEntry e ∧ e.msg_index ≠ 0) → ∀ s : Src,
    textlog_dump_run (Except.ok table) (bytesOf (encodeEntries rs) ++ s) =
      TextlogResult.pushAll (rs.map (processEntry table))
        (textlog_dump_run (Except.ok table) s) := by
  intro rs
  induction rs with
  | nil => intro h s; rfl
  | cons e rs ih =>
    intro h s
    have h1 : bytesOf (encodeEntries (e :: rs)) ++ s =
        bytesOf (encodeEntry e) ++ (bytesOf (encodeEntries rs) ++ s) := by
      simp [encodeEntries, bytesOf, List.append_assoc]
    rw [h1, textlog_run_cons table (h e (by simp)).1 (h e (by simp)).2,
      ih (fun q hq => h q (by simp [hq])) s]
    rfl

theorem textlog_run_term (table : InterningTable) {term : CuLogEntry}
    (hwf : wfEntry term) (hz : term.msg_index = 0) (trailing : Src) :
    textlog_dump_run (Except.ok table) (bytesOf (encodeEntry term) ++ trailing) =
      { events := [], outcome := Except.ok (), rest := trailing } := by
  rw [textlog_dump_run_ok,
    textlog_go_step_term table _ (decodeEntry_exact hwf trailing) hz]

theorem textlog_run_fatal (table : InterningTable) (rs : List CuLogEntry)
    (hrs : ∀ e ∈ rs, wfEntry e ∧ e.msg_index ≠ 0) {src s1 : Src}
    {err : DecodeError} (hdec : decodeEntry src = (Except.error err, s1))
    (hf : isFatal err = true) :
    textlog_dump_run (Except.ok table) (bytesOf (encodeEntries rs) ++ src) =
      TextlogResult.pushAll (rs.map (processEntry table))
        { events := [], outcome := Except.error (textlogErrorOf err),
          rest := s1 } := by
  rw [textlog_run_append table rs hrs src, textlog_dump_run_ok,
    textlog_go_step_fatal table _ hdec hf]

theorem textlogErrorOf_cause (e : DecodeError) :
    (textlogErrorOf e).cause.isSome = true := by
  cases e <;> rfl

theorem processEntry_failed {table : InterningTable} {e : CuLogEntry}
    {msg : String} (h : rebuild_logline table e = Except.error msg) :
    processEntry table e = LogEvent.rebuildFailed := by
  unfold processEntry
  rw [h]

/-- C1: a stream of well-formed non-terminator log records followed by a
terminator record (id `0`) and arbitrary trailing read events is processed by
`textlog_dump` exactly up to the terminator: every record before it yields
one printed event, the trailing part is left unconsumed and never decoded,
and the function returns `Ok`. -/
theorem claim_C1_terminator_stops (table : InterningTable)
    (rs : List CuLogEntry) (hrs : ∀ e ∈ rs, wfEntry e ∧ e.msg_index ≠ 0)
    (term : CuLogEntry) (htwf : wfEntry term) (hz : term.msg_index = 0)
    (trailing : Src) :
    textlog_dump_run (Except.ok table)
        (bytesOf (encodeEntries rs) ++ (bytesOf (encodeEntry term) ++ trailing)) =
      { events := rs.map (processEntry table), outcome := Except.ok (),
        rest := trailing } := by
  rw [textlog_run_append table rs hrs _, textlog_run_term table htwf hz trailing]
  simp [TextlogResult.pushAll]

/-- Witness for C1 at a concrete input: one record with id `3`, a terminator,
and one trailing byte. -/
theorem claim_C1_witness :
    textlog_dump_run
        (Except.ok (fun i => if i = 3 then some [Tpl.lit "hi"] else none))
        (bytesOf (encodeEntries [⟨3, 5, []⟩]) ++
          (bytesOf (encodeEntry ⟨0, 0, []⟩) ++ [ReadItem.byte 7])) =
      { events := [LogEvent.line 5 "hi"], outcome := Except.ok (),
        rest := [ReadItem.byte 7] } :=
  (claim_C1_terminator_stops
      (fun i => if i = 3 then some [Tpl.lit "hi"] else none)
      [⟨3, 5, []⟩] (by decide) ⟨0, 0, []⟩ (by decide) (by decide)
      [ReadItem.byte 7]).trans (by decide)

/-- C2: a stream that ends cleanly exactly after the encodings of `N`
complete records decodes exactly those `N` records and signals orderly
exhaustion: `copperlists_dump` yields exactly the `N` containers and
`textlog_dump` processes exactly the `N` records and returns `Ok`, both when
the codec reports clean unexpected-end (the byte list simply stops) and when
the underlying reader reports I/O end-of-file. -/
theorem claim_C2_clean_truncation (table : InterningTable)
    (cls : List CopperList) (hcls : ∀ cl ∈ cls, wfCopperList cl)
    (rs : List CuLogEntry) (hrs : ∀ e ∈ rs, wfEntry e ∧ e.msg_index ≠ 0) :
    copperlists_dump (bytesOf (encodeCopperLists cls)) = cls ∧
    copperlists_dump (bytesOf (encodeCopperLists cls) ++
      [ReadItem.ioFailure IOKind.unexpectedEof]) = cls ∧
    textlog_dump_run (Except.ok table) (bytesOf (encodeEntries rs)) =
      { events := rs.map (processEntry table), outcome := Except.ok (),
        rest := [] } ∧
    textlog_dump_run (Except.ok table) (bytesOf (encodeEntries rs) ++
        [ReadItem.ioFailure IOKind.unexpectedEof]) =
      { events := rs.map (processEntry table), outcome := Except.ok (),
        rest := [] } := by
  refine ⟨?_, ?_, ?_, ?_⟩
  · have h := copperlists_dump_encs hcls ([] : Src)
    simpa [copperlists_dump_nil] using h
  · have h := copperlists_dump_encs hcls [ReadItem.ioFailure IOKind.unexpectedEof]
    simpa [copperlists_dump_eofItem] using h
  · have h := textlog_run_append table rs hrs []
    simpa [textlog_run_nil, TextlogResult.pushAll] using h
  · have h := textlog_run_append table rs hrs
      [ReadItem.ioFailure IOKind.unexpectedEof]
    simpa [textlog_run_eofItem, TextlogResult.pushAll] using h

/-- Witness for C2 at a concrete input: one snapshot container and one log
record. -/
theorem claim_C2_witness :
    copperlists_dump (bytesOf (encodeCopperLists [⟨1, ⟨2, 3, 4⟩⟩])) =
        [⟨1, ⟨2, 3, 4⟩⟩] ∧
    copperlists_dump (bytesOf (encodeCopperLists [⟨1, ⟨2, 3, 4⟩⟩]) ++
        [ReadItem.ioFailure IOKind.unexpectedEof]) = [⟨1, ⟨2, 3, 4⟩⟩] ∧
    textlog_dump_run
        (Except.ok (fun i => if i = 3 then some [Tpl.lit "hi"] else none))
        (bytesOf (encodeEntries [⟨3, 5, []⟩])) =
      { events := [⟨3, 5, []⟩].map (processEntry
          (fun i => if i = 3 then some [Tpl.lit "hi"] else none)),
        outcome := Except.ok (), rest := [] } ∧
    textlog_dump_run
        (Except.ok (fun i => if i = 3 then some [Tpl.lit "hi"] else none))
        (bytesOf (encodeEntries [⟨3, 5, []⟩]) ++
          [ReadItem.ioFailure IOKind.unexpectedEof]) =
      { events := [⟨3, 5, []⟩].map (processEntry
          (fun i => if i = 3 then some [Tpl.lit "hi"] else none)),
        outcome := Except.ok (), rest := [] } :=
  claim_C2_clean_truncation
    (fun i => if i = 3 then some [Tpl.lit "hi"] else none)
    [⟨1, ⟨2, 3, 4⟩⟩] (by decide) [⟨3, 5, []⟩] (by decide)

/-- C3: encoding the four snapshot containers of the repository's
`test_copperlists_dump` test — payloads `(1,2,3.0)`, `(2,3,4.0)`, `(3,4,5.0)`,
`(4,5,6.0)` (the `f32` components written as their IEEE-754 bit patterns) and
id `1` each — into one byte buffer and decoding it with `copperlists_dump`
yields exactly those four payloads, same field values, same order. -/
theorem claim_C3_snapshot_roundtrip_four :
    copperlists_dump (bytesOf (encodeCopperLists
        [⟨1, ⟨1, 2, 1077936128⟩⟩, ⟨1, ⟨2, 3, 1082130432⟩⟩,
         ⟨1, ⟨3, 4, 1084227584⟩⟩, ⟨1, ⟨4, 5, 1086324736⟩⟩])) =
      [⟨1, ⟨1, 2, 1077936128⟩⟩, ⟨1, ⟨2, 3, 1082130432⟩⟩,
       ⟨1, ⟨3, 4, 1084227584⟩⟩, ⟨1, ⟨4, 5, 1086324736⟩⟩] := by decide

/-- C4 counterexample: on a source whose first read event is an I/O failure
that is not end-of-file — a fatal decode failure in the claim's sense — the
`extract-copperlist` path completes with `Ok`; no error surfaces to the
caller, so the claim that such failures "surface as an error" and exit
non-zero is false on the code. -/
theorem claim_C4_counterexample :
    run_extract_copperlist [ReadItem.ioFailure IOKind.otherKind] =
      Except.ok [] := by decide

/-- C4 amended: every decode failure other than clean end-of-input or I/O
end-of-file stops the snapshot sequence, but it is printed and swallowed
rather than surfaced: the iterator simply returns `none` and the
`extract-copperlist` command still returns `Ok`, never an error value. -/
theorem claim_C4_fatal_error_swallowed {src s1 : Src} {err : DecodeError}
    (hdec : decodeCopperList src = (Except.error err, s1))
    (_hf : isFatal err = true) :
    copperlists_next src = (none, s1) ∧
    run_extract_copperlist src = Except.ok (copperlists_dump src) ∧
    ∀ e : CuError, run_extract_copperlist src ≠ Except.error e := by
  refine ⟨?_, rfl, fun e h => by simp [run_extract_copperlist] at h⟩
  unfold copperlists_next
  rw [hdec]

/-- Witness for the amended C4 at a concrete input: a lone non-EOF I/O
failure. -/
theorem claim_C4_witness :
    copperlists_next [ReadItem.ioFailure IOKind.otherKind] = (none, []) ∧
    run_extract_copperlist [ReadItem.ioFailure IOKind.otherKind] =
      Except.ok (copperlists_dump [ReadItem.ioFailure IOKind.otherKind]) ∧
    ∀ e : CuError, run_extract_copperlist [ReadItem.ioFailure IOKind.otherKind] ≠
      Except.error e :=
  @claim_C4_fatal_error_swallowed [ReadItem.ioFailure IOKind.otherKind] []
    (DecodeError.ioFail IOKind.otherKind) (by decide) (by decide)

/-- C5: when the log-record decode fails with an error that is neither clean
end-of-input nor I/O end-of-file — after any prefix of well-formed records —
`textlog_dump` stops and returns an error value with the underlying cause
attached. -/
theorem claim_C5_fatal_error_propagates (table : InterningTable)
    (rs : List CuLogEntry) (hrs : ∀ e ∈ rs, wfEntry e ∧ e.msg_index ≠ 0)
    {src s1 : Src} {err : DecodeError}
    (hdec : decodeEntry src = (Except.error err, s1))
    (hf : isFatal err = true) :
    textlog_dump (Except.ok table) (bytesOf (encodeEntries rs) ++ src) =
      Except.error (textlogErrorOf err) ∧
    (textlogErrorOf err).cause.isSome = true := by
  constructor
  · unfold textlog_dump
    rw [textlog_run_fatal table rs hrs hdec hf]
    rfl
  · exact textlogErrorOf_cause err

/-- Witness for C5 at a concrete input: one good record, then a non-EOF I/O
failure. -/
theorem claim_C5_witness :
    textlog_dump (Except.ok (fun _ => none))
        (bytesOf (encodeEntries [⟨3, 5, []⟩]) ++
          [ReadItem.ioFailure IOKind.otherKind]) =
      Except.error (textlogErrorOf (DecodeError.ioFail IOKind.otherKind)) ∧
    (textlogErrorOf (DecodeError.ioFail IOKind.otherKind)).cause.isSome = true :=
  @claim_C5_fatal_error_propagates (fun _ => none) [⟨3, 5, []⟩] (by decide)
    [ReadItem.ioFailure IOKind.otherKind] [] (DecodeError.ioFail IOKind.otherKind)
    (by decide) (by decide)

/-- C6: a successfully decoded record whose text reconstruction fails (for
example because its id is absent from the interning table) is reported as a
single failure event and decoding continues with the rest of the stream
unchanged; the failure affects only that one record. -/
theorem claim_C6_rebuild_failure_continues (table : InterningTable)
    {e : CuLogEntry} (hwf : wfEntry e) (hnz : e.msg_index ≠ 0)
    {msg : String} (hfail : rebuild_logline table e = Except.error msg)
    (s : Src) :
    textlog_dump_run (Except.ok table) (bytesOf (encodeEntry e) ++ s) =
      TextlogResult.push LogEvent.rebuildFailed
        (textlog_dump_run (Except.ok table) s) := by
  rw [textlog_run_cons table hwf hnz s, processEntry_failed hfail]

/-- Witness for C6 at a concrete input: a record with id `3` absent from the
table, followed by a record with id `4` that reconstructs fine; the dump
reports one failure, then the good line, and returns `Ok`. -/
theorem claim_C6_witness :
    textlog_dump_run
        (Except.ok (fun i => if i = 4 then some [Tpl.lit "ok"] else none))
        (bytesOf (encodeEntry ⟨3, 5, []⟩) ++ bytesOf (encodeEntry ⟨4, 6, []⟩)) =
      { events := [LogEvent.rebuildFailed, LogEvent.line 6 "ok"],
        outcome := Except.ok (), rest := [] } :=
  (@claim_C6_rebuild_failure_continues
      (fun i => if i = 4 then some [Tpl.lit "ok"] else none)
      ⟨3, 5, []⟩ (by decide) (by decide) "interned id not found" (by decide)
      (bytesOf (encodeEntry ⟨4, 6, []⟩))).trans (by decide)

/-- C7 counterexample: a source holding a container with id `0` followed by a
second container is decoded in full by `copperlists_dump`: the id-`0`
container is yielded and so is the container after it, refuting the claim
that the snapshot stream stops at a terminator record. -/
theorem claim_C7_counterexample :
    copperlists_dump (bytesOf (encodeCopperLists
        [⟨0, ⟨1, 2, 3⟩⟩, ⟨7, ⟨4, 5, 6⟩⟩])) =
      [⟨0, ⟨1, 2, 3⟩⟩, ⟨7, ⟨4, 5, 6⟩⟩] := by decide

/-- C7 amended: `copperlists_dump` stops without error on clean end-of-stream
or I/O end-of-file (or, silently, on any decode failure), but it has no
terminator handling: a container with id `0` is yielded like any other and
decoding continues past it. -/
theorem claim_C7_terminator_not_special {cl0 cl1 : CopperList}
    (h0 : wfCopperList cl0) (_hz : cl0.id = 0) (h1 : wfCopperList cl1) :
    copperlists_dump
        (bytesOf (encodeCopperList cl0 ++ encodeCopperList cl1)) =
      [cl0, cl1] := by
  rw [bytesOf_append, copperlists_dump_cons h0]
  have h := copperlists_dump_cons h1 ([] : Src)
  simp only [List.append_nil] at h
  rw [h, copperlists_dump_nil]

/-- Witness for the amended C7 at a concrete input. -/
theorem claim_C7_witness :
    copperlists_dump
        (bytesOf (encodeCopperList ⟨0, ⟨1, 2, 3⟩⟩ ++
          encodeCopperList ⟨7, ⟨4, 5, 6⟩⟩)) =
      [⟨0, ⟨1, 2, 3⟩⟩, ⟨7, ⟨4, 5, 6⟩⟩] :=
  claim_C7_terminator_not_special (by decide) (by decide) (by decide)

/-- C8: when reading the interning-table index fails, `textlog_dump` returns
that very error — which, per the spec's construction-failure contract,
carries its cause — before decoding anything: no event is produced and the
input source is left entirely unconsumed. -/
theorem claim_C8_index_failure_before_decode (e : CuError)
    (_hc : e.cause.isSome = true) (src : Src) :
    textlog_dump (Except.error e) src = Except.error e ∧
    (textlog_dump_run (Except.error e) src).rest = src ∧
    (textlog_dump_run (Except.error e) src).events = [] := by
  exact ⟨rfl, rfl, rfl⟩

/-- Witness for C8 at a concrete input. -/
theorem claim_C8_witness :
    textlog_dump
        (Except.error (CuError.new_with_cause "Error reading log index"
          "no such file")) [ReadItem.byte 1] =
      Except.error (CuError.new_with_cause "Error reading log index"
        "no such file") ∧
    (textlog_dump_run
        (Except.error (CuError.new_with_cause "Error reading log index"
          "no such file")) [ReadItem.byte 1]).rest = [ReadItem.byte 1] ∧
    (textlog_dump_run
        (Except.error (CuError.new_with_cause "Error reading log index"
          "no such file")) [ReadItem.byte 1]).events = [] :=
  claim_C8_index_failure_before_decode
    (CuError.new_with_cause "Error reading log index" "no such file")
    (by decide) [ReadItem.byte 1]

/-- C10: the iterator behind `copperlists_dump` is not fused.  After a pull
returns `none` because of a decode error (here a non-EOF I/O failure), the
source stands just past the failed read, and the next pull decodes from that
position and yields a further container. -/
theorem claim_C10_iterator_not_fused {cl : CopperList}
    (hwf : wfCopperList cl) :
    copperlists_next
        (ReadItem.ioFailure IOKind.otherKind :: bytesOf (encodeCopperList cl)) =
      (none, bytesOf (encodeCopperList cl)) ∧
    copperlists_next (bytesOf (encodeCopperList cl)) = (some cl, []) := by
  constructor
  · have hdec : decodeCopperList
        (ReadItem.ioFailure IOKind.otherKind :: bytesOf (encodeCopperList cl)) =
        (Except.error (DecodeError.ioFail IOKind.otherKind),
          bytesOf (encodeCopperList cl)) := rfl
    unfold copperlists_next
    rw [hdec]
  · have h2 : decodeCopperList (bytesOf (encodeCopperList cl)) =
        (Except.ok cl, []) := by
      have h := decodeCopperList_exact hwf ([] : Src)
      simpa using h
    unfold copperlists_next
    rw [h2]

/-- Witness for C10 at a concrete input. -/
theorem claim_C10_witness :
    copperlists_next (ReadItem.ioFailure IOKind.otherKind ::
        bytesOf (encodeCopperList ⟨1, ⟨2, 3, 4⟩⟩)) =
      (none, bytesOf (encodeCopperList ⟨1, ⟨2, 3, 4⟩⟩)) ∧
    copperlists_next (bytesOf (encodeCopperList ⟨1, ⟨2, 3, 4⟩⟩)) =
      (some ⟨1, ⟨2, 3, 4⟩⟩, []) :=
  claim_C10_iterator_not_fused (by decide)

end CuExport
